import Mathlib

/-!
# Verification of `audfprint.py` (command-line driver of the audfprint fingerprinter)

Shallow embedding of the command-line driver `audfprint.py` together with a
spec-modelled `HashTable` (the module `hash_table.py` is not part of the
sources given; its operational contract is taken from the specification's
§3/§4.3).  Python strings are modelled as `List Char`, Python ints as
`Nat`/`Int` as appropriate; fallible code returns `Except`.
-/

namespace Audfprint

/-! ## The analyzer configuration (`setup_analyzer`, audfprint.py lines 227-245)

`setup_analyzer` reads plain values out of the docopt dictionary and stores
them on a fresh `Analyzer` object.  Only the integer-valued fields matter for
the claims; the float-valued fields (`density`, `f_sd`) are carried through
unchanged, modelled as rationals.  `n_hop = n_fft/2` divides two integer
constants exactly (512/2 = 256), so `Nat` division is exact here. -/

/-- The docopt argument set as far as `setup_analyzer` consumes it.
`matchCmd` is the truth value of `args['match']` (whether the chosen
command is `match`). -/
structure AnalyzerArgs where
  density : ℚ
  pksPerFrame : ℤ
  fanout : ℤ
  freqSd : ℚ
  shiftsArg : ℤ
  samplerate : ℤ
  matchCmd : Bool

/-- The analyzer fields that `setup_analyzer` assigns. -/
structure Analyzer where
  density : ℚ
  maxpksperframe : ℤ
  maxpairsperpeak : ℤ
  f_sd : ℚ
  shifts : ℤ
  target_sr : ℤ
  n_fft : ℕ
  n_hop : ℕ
deriving DecidableEq

/-- Model of `setup_analyzer(args)` (audfprint.py lines 227-245): copies the
command-line values onto the analyzer, fixes `n_fft = 512` and
`n_hop = n_fft/2`, and replaces a zero `--shifts` by 4 for the `match`
command and 1 otherwise. -/
def setup_analyzer (args : AnalyzerArgs) : Analyzer :=
  let shifts0 := args.shiftsArg
  { density := args.density
    maxpksperframe := args.pksPerFrame
    maxpairsperpeak := args.fanout
    f_sd := args.freqSd
    target_sr := args.samplerate
    n_fft := 512
    n_hop := 512 / 2
    shifts := if shifts0 = 0 then (if args.matchCmd then 4 else 1) else shifts0 }

/-- The condition under which `main` routes a command to
`do_cmd_multiproc` (audfprint.py line 386):
`ncores > 1 and cmd != "merge"`. -/
def usesMultiproc (cmd : String) (ncores : ℤ) : Bool :=
  decide (1 < ncores) && decide (cmd ≠ "merge")

/-! ## Path strings (`file_precompute_peaks` / `file_precompute_hashes`,
audfprint.py lines 52-86)

Python strings are modelled as `List Char`.  `pySplit` is Python's
`str.split('/')` (with an explicit separator it keeps empty pieces and maps
`""` to `[""]`); `pyJoin` is `'/'.join`; `splitext` is `posixpath.splitext`
including its rule that dots leading a basename never start an extension;
`pjoin` is the two-argument `posixpath.join`. -/

abbrev PyStr := List Char

/-- Helper of `pySplit`: push one more character onto the front of the
first piece. -/
def consHead (c : Char) : List PyStr → List PyStr
  | [] => [[c]]
  | h :: t => (c :: h) :: t

/-- Python `s.split('/')`: split on every `'/'`, keeping empty pieces;
`"".split('/') == ['']`. -/
def pySplit : PyStr → List PyStr
  | [] => [[]]
  | c :: rest => if c = '/' then [] :: pySplit rest else consHead c (pySplit rest)

/-- Python `'/'.join(pieces)`. -/
def pyJoin : List PyStr → PyStr
  | [] => []
  | [x] => x
  | x :: y :: xs => x ++ '/' :: pyJoin (y :: xs)

/-- The index of the last `'.'` of `b` (meaningful when `b` has a dot:
the characters after it are exactly the longest dot-free suffix). -/
def lastDotIdx (b : PyStr) : ℕ :=
  b.length - (b.reverse.takeWhile (fun c => c ≠ '.')).length - 1

/-- The extension split of `posixpath.splitext` applied to a basename
(a string without `'/'`): split before the last `'.'`, but only when some
character strictly before that dot is not itself a dot (dots that lead the
basename never start an extension, so `'.bashrc'` and `'...s'` have no
extension). -/
def stripExtBase (b : PyStr) : PyStr × PyStr :=
  if (b.reverse.takeWhile (fun c => c ≠ '.')).length = b.length then (b, [])
  else if (b.take (lastDotIdx b)).any (fun c => c ≠ '.') then
    (b.take (lastDotIdx b), b.drop (lastDotIdx b))
  else (b, [])

/-- The basename of a path: everything after the last `'/'` (the whole
string if there is no `'/'`). -/
def basenameOf (p : PyStr) : PyStr :=
  (p.reverse.takeWhile (fun c => c ≠ '/')).reverse

/-- Model of `posixpath.splitext(p)`: the extension starts at the last `'.'` of the
basename, provided a non-dot character of the basename stands before it.
The directory part `p.take (p.length - basename.length)` (everything up to
and including the last `'/'`) is kept unchanged. -/
def splitext (p : PyStr) : PyStr × PyStr :=
  (p.take (p.length - (basenameOf p).length) ++ (stripExtBase (basenameOf p)).1,
   (stripExtBase (basenameOf p)).2)

/-- Two-argument `posixpath.join(a, b)`: `b` if `b` is absolute, else `a`
and `b` glued with exactly one `'/'` (none added when `a` is empty or
already ends with `'/'`). -/
def pjoin (a b : PyStr) : PyStr :=
  if b.head? = some '/' then b
  else if a = [] ∨ a.getLast? = some '/' then a ++ b
  else a ++ '/' :: b

/-- The component filter of `file_precompute_peaks`/`file_precompute_hashes`
(audfprint.py lines 59-60 and 77-78): keep only the components of the input
filename that are not `'.'`, not `'..'` and not empty. -/
def precompComps (filename : PyStr) : List PyStr :=
  (pySplit filename).filter
    (fun comp => decide (comp ≠ ".".data) && decide (comp ≠ "..".data) &&
      decide (comp ≠ []))

/-- The `relname` of `file_precompute_peaks`/`file_precompute_hashes`
(audfprint.py lines 59-60 and 77-78): the filtered components re-joined
with `'/'`. -/
def precompRelname (filename : PyStr) : PyStr :=
  pyJoin (precompComps filename)

/-- The output path of `file_precompute_peaks`/`file_precompute_hashes`
(audfprint.py lines 59-62 and 77-80):
`os.path.join(precompdir, splitext(relname)[0] + precompext)`. -/
def precompOpfname (precompdir filename ext : PyStr) : PyStr :=
  pjoin precompdir ((splitext (precompRelname filename)).1 ++ ext)

/-! ### Lemmas about the path-string model -/

theorem consHead_ne_nil (c : Char) (l : List PyStr) : consHead c l ≠ [] := by
  cases l <;> simp [consHead]

theorem pySplit_ne_nil (s : PyStr) : pySplit s ≠ [] := by
  cases s with
  | nil => simp [pySplit]
  | cons c rest =>
    simp only [pySplit]
    split
    · simp
    · exact consHead_ne_nil c (pySplit rest)

theorem mem_consHead {c : Char} {l : List PyStr} {comp : PyStr}
    (h : comp ∈ consHead c l) :
    (∃ h0 t, l = h0 :: t ∧ (comp = c :: h0 ∨ comp ∈ t)) ∨ (l = [] ∧ comp = [c]) := by
  cases l with
  | nil => right; simpa [consHead] using h
  | cons h0 t =>
    left
    refine ⟨h0, t, rfl, ?_⟩
    simpa [consHead] using h

theorem sep_not_mem_of_mem_pySplit (s : PyStr) :
    ∀ comp ∈ pySplit s, ('/' : Char) ∉ comp := by
  induction s with
  | nil =>
    intro comp hc
    simp only [pySplit, List.mem_singleton] at hc
    simp [hc]
  | cons c rest ih =>
    intro comp hc
    simp only [pySplit] at hc
    by_cases hcs : c = '/'
    · rw [if_pos hcs] at hc
      rcases List.mem_cons.mp hc with h1 | h1
      · simp [h1]
      · exact ih comp h1
    · rw [if_neg hcs] at hc
      rcases mem_consHead hc with ⟨h0, t, hl, hcomp | hcomp⟩ | ⟨hl, hcomp⟩
      · subst hcomp
        intro hmem
        rcases List.mem_cons.mp hmem with h2 | h2
        · exact hcs h2.symm
        · exact ih h0 (hl ▸ List.mem_cons_self h0 t) h2
      · exact ih comp (hl ▸ List.mem_cons_of_mem h0 hcomp)
      · exact absurd hl (pySplit_ne_nil rest)

theorem pySplit_no_sep {s : PyStr} (h : ('/' : Char) ∉ s) : pySplit s = [s] := by
  induction s with
  | nil => rfl
  | cons c rest ih =>
    have hc : c = '/' → False := fun hh => h (hh ▸ List.mem_cons_self _ _)
    have hr : ('/' : Char) ∉ rest := fun hm => h (List.mem_cons_of_mem _ hm)
    simp only [pySplit, if_neg hc, ih hr, consHead]

theorem pySplit_append_sep {a : PyStr} (b : PyStr) (h : ('/' : Char) ∉ a) :
    pySplit (a ++ '/' :: b) = a :: pySplit b := by
  induction a with
  | nil => simp [pySplit]
  | cons c aa ih =>
    have hc : c = '/' → False := fun hh => h (hh ▸ List.mem_cons_self _ _)
    have ha : ('/' : Char) ∉ aa := fun hm => h (List.mem_cons_of_mem _ hm)
    show pySplit (c :: (aa ++ '/' :: b)) = (c :: aa) :: pySplit b
    simp only [pySplit, if_neg hc, ih ha, consHead]

theorem takeWhile_append_stop {α : Type} {p : α → Bool} {u : List α} (v : α)
    (w : List α) (hu : ∀ c ∈ u, p c = true) (hv : p v = false) :
    (u ++ v :: w).takeWhile p = u := by
  induction u with
  | nil => simp [List.takeWhile_cons, hv]
  | cons x u ih =>
    have hx := hu x (List.mem_cons_self _ _)
    simp only [List.cons_append, List.takeWhile_cons, hx, if_true]
    rw [ih (fun c hc => hu c (List.mem_cons_of_mem _ hc))]

theorem basenameOf_no_sep {b : PyStr} (h : ('/' : Char) ∉ b) :
    basenameOf b = b := by
  unfold basenameOf
  rw [List.takeWhile_eq_self_iff.mpr, List.reverse_reverse]
  intro c hc
  rw [List.mem_reverse] at hc
  exact decide_eq_true (fun he => h (he ▸ hc))

theorem basenameOf_append_sep (x : PyStr) {b : PyStr} (h : ('/' : Char) ∉ b) :
    basenameOf (x ++ '/' :: b) = b := by
  unfold basenameOf
  have hrw : (x ++ '/' :: b).reverse = b.reverse ++ '/' :: x.reverse := by
    simp
  rw [hrw, takeWhile_append_stop _ _ ?_ (by simp), List.reverse_reverse]
  intro c hc
  rw [List.mem_reverse] at hc
  exact decide_eq_true (fun he => h (he ▸ hc))

theorem splitext_no_sep {b : PyStr} (h : ('/' : Char) ∉ b) :
    splitext b = stripExtBase b := by
  unfold splitext
  rw [basenameOf_no_sep h]
  simp

theorem splitext_append_sep (x : PyStr) {b : PyStr} (h : ('/' : Char) ∉ b) :
    splitext (x ++ '/' :: b)
      = (x ++ '/' :: (stripExtBase b).1, (stripExtBase b).2) := by
  unfold splitext
  rw [basenameOf_append_sep x h]
  have hlen : (x ++ '/' :: b).length - b.length = x.length + 1 := by
    simp only [List.length_append, List.length_cons]
    omega
  have hsplit : x ++ '/' :: b = (x ++ ['/']) ++ b := by simp
  rw [hlen, hsplit, List.take_left' (by simp)]
  simp

theorem pyJoin_concat (cs : List PyStr) (b : PyStr) (h : cs ≠ []) :
    pyJoin (cs ++ [b]) = pyJoin cs ++ '/' :: b := by
  induction cs with
  | nil => exact absurd rfl h
  | cons c0 rest ih =>
    cases rest with
    | nil => rfl
    | cons c1 rest2 =>
      have : (c0 :: c1 :: rest2) ++ [b] = c0 :: c1 :: (rest2 ++ [b]) := by simp
      rw [this]
      show c0 ++ '/' :: pyJoin (c1 :: (rest2 ++ [b]))
        = (c0 ++ '/' :: pyJoin (c1 :: rest2)) ++ '/' :: b
      rw [show c1 :: (rest2 ++ [b]) = (c1 :: rest2) ++ [b] from rfl, ih (by simp)]
      simp

theorem pySplit_pyJoin_sep (cs : List PyStr) (r : PyStr) (hne : cs ≠ [])
    (hsep : ∀ c ∈ cs, ('/' : Char) ∉ c) :
    pySplit (pyJoin cs ++ '/' :: r) = cs ++ pySplit r := by
  induction cs with
  | nil => exact absurd rfl hne
  | cons c0 rest ih =>
    cases rest with
    | nil =>
      show pySplit (c0 ++ '/' :: r) = [c0] ++ pySplit r
      rw [pySplit_append_sep r (hsep c0 (List.mem_cons_self _ _))]
      rfl
    | cons c1 rest2 =>
      show pySplit ((c0 ++ '/' :: pyJoin (c1 :: rest2)) ++ '/' :: r) = _
      have hassoc : (c0 ++ '/' :: pyJoin (c1 :: rest2)) ++ '/' :: r
          = c0 ++ '/' :: (pyJoin (c1 :: rest2) ++ '/' :: r) := by simp
      rw [hassoc, pySplit_append_sep _ (hsep c0 (List.mem_cons_self _ _)),
        ih (by simp) (fun c hc => hsep c (List.mem_cons_of_mem _ hc))]
      rfl

/-- A path component that survives the filter of
`file_precompute_peaks`/`file_precompute_hashes`: nonempty, not `'.'`,
not `'..'`, and (being a split piece) free of `'/'`. -/
def goodComp (c : PyStr) : Prop :=
  c ≠ [] ∧ c ≠ ".".data ∧ c ≠ "..".data ∧ ('/' : Char) ∉ c

instance (c : PyStr) : Decidable (goodComp c) := by
  unfold goodComp; infer_instance

theorem precompComps_good (filename : PyStr) :
    ∀ c ∈ precompComps filename, goodComp c := by
  intro c hc
  have hmem := List.mem_of_mem_filter hc
  have hsep := sep_not_mem_of_mem_pySplit filename c hmem
  have hp := (List.mem_filter.mp hc).2
  simp only [Bool.and_eq_true, decide_eq_true_eq] at hp
  exact ⟨hp.2, hp.1.1, hp.1.2, hsep⟩

theorem stripExtBase_good {b : PyStr} (hb : goodComp b) :
    goodComp (stripExtBase b).1 := by
  obtain ⟨h1, h2, h3, h4⟩ := hb
  unfold stripExtBase
  by_cases hc : (b.reverse.takeWhile (fun c => c ≠ '.')).length = b.length
  · rw [if_pos hc]
    exact ⟨h1, h2, h3, h4⟩
  · rw [if_neg hc]
    by_cases ha : (b.take (lastDotIdx b)).any (fun c => c ≠ '.') = true
    · rw [if_pos ha]
      dsimp only
      obtain ⟨c, hcmem, hcne⟩ := List.any_eq_true.mp ha
      rw [decide_eq_true_eq] at hcne
      refine ⟨?_, ?_, ?_, ?_⟩
      · intro he
        rw [he] at hcmem
        exact absurd hcmem (List.not_mem_nil c)
      · intro he
        rw [he] at hcmem
        rw [show ".".data = ['.'] from rfl, List.mem_singleton] at hcmem
        exact hcne hcmem
      · intro he
        rw [he] at hcmem
        rw [show "..".data = ['.', '.'] from rfl] at hcmem
        rcases List.mem_cons.mp hcmem with h5 | h5
        · exact hcne h5
        · exact hcne (List.mem_singleton.mp h5)
      · intro hmem
        exact h4 (List.take_subset _ _ hmem)
    · rw [if_neg ha]
      exact ⟨h1, h2, h3, h4⟩

theorem append_ne_dotdot {r ext : PyStr} (h1 : r ≠ []) (h2 : r ≠ ".".data)
    (h3 : r ≠ "..".data) (h4 : ext ≠ "..".data) : r ++ ext ≠ "..".data := by
  rw [show "..".data = ['.', '.'] from rfl] at h3 h4 ⊢
  rw [show ".".data = ['.'] from rfl] at h2
  intro he
  cases r with
  | nil => exact h1 rfl
  | cons a r2 =>
    cases r2 with
    | nil =>
      rw [List.cons_append, List.nil_append, List.cons.injEq] at he
      obtain ⟨ha, hext⟩ := he
      cases ext with
      | nil => simp at hext
      | cons e1 e2 =>
        rw [List.cons.injEq] at hext
        obtain ⟨he1, he2⟩ := hext
        exact h2 (by rw [ha])
    | cons a2 r3 =>
      rw [List.cons_append, List.cons_append, List.cons.injEq] at he
      obtain ⟨ha, he'⟩ := he
      rw [List.cons.injEq] at he'
      obtain ⟨ha2, he''⟩ := he'
      rw [List.append_eq_nil] at he''
      exact h3 (by rw [ha, ha2, he''.1])

/-- If `'/'` is not a character of `l`, its first character is not `'/'`. -/
theorem head?_ne_sep {l : PyStr} (h : ('/' : Char) ∉ l) :
    l.head? ≠ some '/' := by
  cases l with
  | nil => simp
  | cons c t =>
    simp only [List.head?_cons, ne_eq, Option.some.injEq]
    exact fun he => h (he ▸ List.mem_cons_self _ _)

theorem pyJoin_cons_head (c0 : PyStr) (rest : List PyStr) :
    ∃ t, pyJoin (c0 :: rest) = c0 ++ t := by
  cases rest with
  | nil => exact ⟨[], by simp [pyJoin]⟩
  | cons c1 rest2 => exact ⟨'/' :: pyJoin (c1 :: rest2), rfl⟩

/-- The central safety fact behind C9: after the component filter and the
extension swap, the relative path `splitext(relname)[0] + ext` contains no
`'..'` component and does not begin with `'/'`. -/
theorem precompRel_safe (filename ext : PyStr) (hext : ('/' : Char) ∉ ext)
    (hext2 : ext ≠ "..".data) :
    (∀ comp ∈ pySplit ((splitext (precompRelname filename)).1 ++ ext),
      comp ≠ "..".data)
    ∧ ((splitext (precompRelname filename)).1 ++ ext).head? ≠ some '/' := by
  have hgood : ∀ c ∈ precompComps filename, goodComp c :=
    precompComps_good filename
  unfold precompRelname
  rcases List.eq_nil_or_concat (precompComps filename) with hnil | ⟨cs, b, hcat⟩
  · rw [hnil]
    have hse : splitext (pyJoin []) = ([], []) := rfl
    rw [hse]
    constructor
    · intro comp hcm
      rw [List.nil_append, pySplit_no_sep hext, List.mem_singleton] at hcm
      exact hcm ▸ hext2
    · rw [List.nil_append]
      exact head?_ne_sep hext
  · rw [hcat, List.concat_eq_append] at hgood ⊢
    have hbgood : goodComp b := hgood b (by simp)
    have hcsgood : ∀ c ∈ cs, goodComp c := fun c hc => hgood c (by simp [hc])
    have hrb := stripExtBase_good hbgood
    cases cs with
    | nil =>
      rw [List.nil_append]
      have hj : pyJoin [b] = b := rfl
      rw [hj, splitext_no_sep hbgood.2.2.2]
      have hnosep : ('/' : Char) ∉ (stripExtBase b).1 ++ ext := by
        intro hm
        rcases List.mem_append.mp hm with hm | hm
        · exact hrb.2.2.2 hm
        · exact hext hm
      constructor
      · intro comp hcm
        rw [pySplit_no_sep hnosep, List.mem_singleton] at hcm
        subst hcm
        exact append_ne_dotdot hrb.1 hrb.2.1 hrb.2.2.1 hext2
      · exact head?_ne_sep hnosep
    | cons c0 cs2 =>
      rw [pyJoin_concat _ b (by simp), splitext_append_sep _ hbgood.2.2.2]
      have hassoc : (pyJoin (c0 :: cs2) ++ '/' :: (stripExtBase b).1) ++ ext
          = pyJoin (c0 :: cs2) ++ '/' :: ((stripExtBase b).1 ++ ext) := by
        simp
      rw [hassoc]
      have hrbext : ('/' : Char) ∉ (stripExtBase b).1 ++ ext := by
        intro hm
        rcases List.mem_append.mp hm with hm | hm
        · exact hrb.2.2.2 hm
        · exact hext hm
      constructor
      · rw [pySplit_pyJoin_sep (c0 :: cs2) _ (by simp)
            (fun c hc => (hcsgood c hc).2.2.2)]
        intro comp hcm
        rcases List.mem_append.mp hcm with hm | hm
        · exact (hcsgood comp hm).2.2.1
        · rw [pySplit_no_sep hrbext, List.mem_singleton] at hm
          subst hm
          exact append_ne_dotdot hrb.1 hrb.2.1 hrb.2.2.1 hext2
      · obtain ⟨t, ht⟩ := pyJoin_cons_head c0 cs2
        rw [ht, List.append_assoc,
          List.head?_append_of_ne_nil c0 (hcsgood c0 (by simp)).1]
        exact head?_ne_sep (hcsgood c0 (by simp)).2.2.2

theorem pjoin_relative {a b : PyStr} (ha : a ≠ []) (ha2 : a.getLast? ≠ some '/')
    (hb : b.head? ≠ some '/') : pjoin a b = a ++ '/' :: b := by
  unfold pjoin
  rw [if_neg hb, if_neg]
  push_neg
  exact ⟨ha, ha2⟩

/-- C9: for every input filename, the precompute output path is
`precompdir` joined with the input path from which every `'.'`, `'..'` and
empty component has been removed (with the precompute extension replacing
the original one), so — provided the extension itself is a normal extension
(no `'/'`, not `'..'`) and `precompdir` is a nonempty directory name with no
trailing `'/'` — the written fingerprint file lies under `precompdir`: the
output is literally `precompdir ++ "/" ++ rel` where `rel` is relative
(does not start with `'/'`) and has no `'..'` component, so a filename
containing `'..'` components cannot cause a write outside `precompdir`. -/
theorem precompute_path_confined (precompdir filename ext : PyStr)
    (hdir : precompdir ≠ []) (hdir2 : precompdir.getLast? ≠ some '/')
    (hext : ('/' : Char) ∉ ext) (hext2 : ext ≠ "..".data) :
    precompOpfname precompdir filename ext
      = precompdir ++ '/' :: ((splitext (precompRelname filename)).1 ++ ext)
    ∧ (∀ comp ∈ pySplit ((splitext (precompRelname filename)).1 ++ ext),
        comp ≠ "..".data) := by
  obtain ⟨hdd, hhd⟩ := precompRel_safe filename ext hext hext2
  exact ⟨pjoin_relative hdir hdir2 hhd, hdd⟩

/-- Witness for C9 at a concrete hostile input: precomputing
`"../../etc/passwd.wav"` under directory `"pre"` writes to
`"pre/etc/passwd.afpt"`, inside `pre`. -/
theorem precompute_path_confined_witness :
    precompOpfname "pre".data "../../etc/passwd.wav".data ".afpt".data
      = "pre".data
        ++ '/' :: ((splitext (precompRelname "../../etc/passwd.wav".data)).1
          ++ ".afpt".data)
    ∧ (∀ comp ∈ pySplit
        ((splitext (precompRelname "../../etc/passwd.wav".data)).1
          ++ ".afpt".data),
        comp ≠ "..".data) :=
  precompute_path_confined "pre".data "../../etc/passwd.wav".data ".afpt".data
    (by decide) (by decide) (by decide) (by decide)

/-! ## The hash table

`hash_table.py` is not among the given sources (only `audfprint.py` and
`setup.py` are), so the `HashTable` class is modelled from the
specification (§3 data model, §4.3 HashIndex contracts). -/

/-- Modelled from the spec: the `HashTable` class of the missing module
`hash_table.py` (spec §3/§4.3).  `hashbits`, `depth`, `maxtime` are the
configuration parameters; `names` is the append-only track name table
(trackId = position); `table` maps each hash code to its bucket, a list of
`(trackId, time)` entries holding at most `depth` entries with times
masked into `[0, maxtime)`; `samplerate` is the optional stored
`params['samplerate']`; `dirty` gates persistence.  Bucket overflow drops
the entries beyond capacity (one fixed choice of the spec's configurable
eviction policy, §9 — the theorems below only concern runs in which no
eviction occurs).  A freshly created or freshly loaded table is clean;
`dirty` becomes true on any mutating operation (store, merge), per §3. -/
structure HashTable where
  hashbits : ℕ
  depth : ℕ
  maxtime : ℕ
  names : List String
  table : ℕ → List (ℕ × ℕ)
  samplerate : Option ℤ
  dirty : Bool

/-- Modelled from the spec: `HashTable(hashbits=…, depth=…, maxtime=…)` —
a fresh, empty, clean table. -/
def HashTable.new (hashbits depth maxtime : ℕ) : HashTable :=
  { hashbits := hashbits, depth := depth, maxtime := maxtime, names := []
    table := fun _ => [], samplerate := none, dirty := false }

/-- Modelled from the spec: `HashTable.store(name, hashes)` (§4.3) —
assign the next trackId (the current name-table position), append each
`(hashcode, time)` pair under its hash code with the time masked into
`[0, maxtime)`, enforce the `depth` capacity bound, and mark dirty. -/
def HashTable.store (ht : HashTable) (name : String)
    (hashes : List (ℕ × ℕ)) : HashTable :=
  { ht with
    names := ht.names ++ [name]
    dirty := true
    table := fun h =>
      (ht.table h ++ (hashes.filter (fun p => decide (p.1 = h))).map
        (fun p => (ht.names.length, p.2 % ht.maxtime))).take ht.depth }

/-- Modelled from the spec: `HashTable.merge(other)` (§4.3) — append the
other table's name table (remapping its trackIds by the current name
count, so they stay fresh), append each bucket's entries under the same
capacity bound, and mark dirty. -/
def HashTable.merge (ht other : HashTable) : HashTable :=
  { ht with
    names := ht.names ++ other.names
    dirty := true
    table := fun h =>
      (ht.table h ++ (other.table h).map
        (fun e => (e.1 + ht.names.length, e.2))).take ht.depth }

/-- Observational view of a bucket: its entries with trackIds replaced by
the track names they denote (bucket membership is order-insensitive, so a
multiset). -/
def HashTable.obsBucket (ht : HashTable) (h : ℕ) : Multiset (String × ℕ) :=
  ((ht.table h).map (fun e => (ht.names.getD e.1 "", e.2)) : List (String × ℕ))

/-- Observational view of the track set. -/
def HashTable.trackSet (ht : HashTable) : Multiset String := (ht.names : Multiset String)

/-- The ids stored in bucket `h` all point into the name table. -/
def HashTable.wfAt (ht : HashTable) (h : ℕ) : Prop :=
  ∀ e ∈ ht.table h, e.1 < ht.names.length

instance (ht : HashTable) (h : ℕ) : Decidable (ht.wfAt h) := by
  unfold HashTable.wfAt; infer_instance

/-- How many entries a hash stream contributes to bucket `h`. -/
def bucketCount (hashes : List (ℕ × ℕ)) (h : ℕ) : ℕ :=
  (hashes.filter (fun p => decide (p.1 = h))).length

/-- The observational contribution of storing file `f` (hash stream `hs`)
to bucket `h`, under time mask `maxtime`. -/
def fileContrib (maxtime : ℕ) (f : String) (hs : List (ℕ × ℕ)) (h : ℕ) :
    Multiset (String × ℕ) :=
  (((hs.filter (fun p => decide (p.1 = h))).map
    (fun p => (f, p.2 % maxtime))) : List (String × ℕ))

/-- The sequential ingest loop of `do_cmd` for `new`/`add`
(audfprint.py lines 133-142): `analyzer.ingest(hash_tab, filename)` for
each file in order.  `ingest` itself lives in the missing module
`audfprint_analyze.py`; modelled from the spec (§2 data flow: hashes of
the file are computed and stored under the file's name), with
`wavfile2hashes` the analyzer's file-to-hash-stream oracle. -/
def seqBuild (wavfile2hashes : String → List (ℕ × ℕ)) (ht : HashTable)
    (files : List String) : HashTable :=
  files.foldl (fun t f => t.store f (wavfile2hashes f)) ht

/-- Model of `make_ht_from_list` (audfprint.py lines 96-110): build a fresh
`HashTable(hashbits, depth, maxtime)` and store each file of `filelist`
into it in order. -/
def make_ht_from_list (wavfile2hashes : String → List (ℕ × ℕ))
    (filelist : List String) (hashbits depth maxtime : ℕ) : HashTable :=
  seqBuild wavfile2hashes (HashTable.new hashbits depth maxtime) filelist

/-- The file-distribution loop of `multiproc_add` (audfprint.py lines
160-165): starting from `ncores` empty lists, file number `ix` is appended
to `filelists[ix % ncores]`. -/
def assignFiles (ncores : ℕ) (files : List String) : List (List String) :=
  files.enum.foldl
    (fun lists p =>
      lists.set (p.1 % ncores) (lists.getD (p.1 % ncores) [] ++ [p.2]))
    (List.replicate ncores [])

/-- Model of `multiproc_add` (audfprint.py lines 150-185): distribute the files
round-robin over `ncores` lists, have each worker `ix` build a fresh table
from `filelists[ix]` via `make_ht_from_list` with the master's `hashbits`,
`depth` and `maxtime`, and merge the worker tables into the master in
worker order 0, 1, …, ncores-1. -/
def multiproc_add (wavfile2hashes : String → List (ℕ × ℕ))
    (hash_tab : HashTable) (files : List String) (ncores : ℕ) : HashTable :=
  ((assignFiles ncores files).map
    (fun fl => make_ht_from_list wavfile2hashes fl hash_tab.hashbits
      hash_tab.depth hash_tab.maxtime)).foldl HashTable.merge hash_tab

/-- The result-gathering loop of `multiproc_add` (audfprint.py lines
176-185), modelled against an arbitrary process-completion order: worker
`c`'s finished table `results c` sits in pipe `c` as soon as `c` has
finished (`c ∈ finished`); the coordinator reads pipe 0, then pipe 1, …,
merging each received table into the master as it goes, and blocks
forever (`none`) only if some dispatched worker never finishes. -/
def gatherLoop (results : ℕ → HashTable) (finished : List ℕ) :
    HashTable → List ℕ → Option HashTable
  | acc, [] => some acc
  | acc, c :: rest =>
    if c ∈ finished then
      gatherLoop results finished (acc.merge (results c)) rest
    else none

/-- The whole gather phase of `multiproc_add`: read the `ncores` pipes in
worker order. -/
def multiproc_gather (master : HashTable) (results : ℕ → HashTable)
    (finished : List ℕ) (ncores : ℕ) : Option HashTable :=
  gatherLoop results finished master (List.range ncores)

/-! ### Per-bucket behaviour of store and merge (no-eviction regime) -/

theorem HashTable.store_bucket (ht : HashTable) (f : String)
    (hs : List (ℕ × ℕ)) (h : ℕ)
    (hlen : (ht.table h).length + bucketCount hs h ≤ ht.depth) :
    (ht.store f hs).table h
      = ht.table h ++ (hs.filter (fun p => decide (p.1 = h))).map
          (fun p => (ht.names.length, p.2 % ht.maxtime)) := by
  show ((ht.table h ++ _).take ht.depth) = _
  apply List.take_of_length_le
  rw [List.length_append, List.length_map]
  exact hlen

theorem HashTable.store_len (ht : HashTable) (f : String)
    (hs : List (ℕ × ℕ)) (h : ℕ)
    (hlen : (ht.table h).length + bucketCount hs h ≤ ht.depth) :
    ((ht.store f hs).table h).length = (ht.table h).length + bucketCount hs h := by
  rw [HashTable.store_bucket ht f hs h hlen, List.length_append, List.length_map]
  rfl

theorem HashTable.store_wfAt {ht : HashTable} {h : ℕ} (f : String)
    (hs : List (ℕ × ℕ)) (hwf : ht.wfAt h) : (ht.store f hs).wfAt h := by
  intro e he
  have he' := List.take_subset _ _ he
  show e.1 < (ht.names ++ [f]).length
  rw [List.length_append, List.length_singleton]
  rcases List.mem_append.mp he' with h1 | h1
  · have := hwf e h1
    omega
  · obtain ⟨p, _, rfl⟩ := List.mem_map.mp h1
    omega

theorem HashTable.obsBucket_store (ht : HashTable) (f : String)
    (hs : List (ℕ × ℕ)) (h : ℕ) (hwf : ht.wfAt h)
    (hlen : (ht.table h).length + bucketCount hs h ≤ ht.depth) :
    (ht.store f hs).obsBucket h
      = ht.obsBucket h + fileContrib ht.maxtime f hs h := by
  unfold HashTable.obsBucket fileContrib
  rw [HashTable.store_bucket ht f hs h hlen, List.map_append]
  have hnames : (ht.store f hs).names = ht.names ++ [f] := rfl
  rw [hnames]
  have h1 : (ht.table h).map
        (fun e => ((ht.names ++ [f]).getD e.1 "", e.2))
      = (ht.table h).map (fun e => (ht.names.getD e.1 "", e.2)) := by
    apply List.map_congr_left
    intro e he
    rw [List.getD_append _ _ _ _ (hwf e he)]
  have h2 : ((hs.filter (fun p => decide (p.1 = h))).map
          (fun p => (ht.names.length, p.2 % ht.maxtime))).map
        (fun e => ((ht.names ++ [f]).getD e.1 "", e.2))
      = (hs.filter (fun p => decide (p.1 = h))).map
          (fun p => (f, p.2 % ht.maxtime)) := by
    rw [List.map_map]
    apply List.map_congr_left
    intro p _
    simp only [Function.comp_apply]
    rw [List.getD_append_right _ _ _ _ (le_refl _)]
    simp
  rw [h1, h2, ← Multiset.coe_add]

theorem HashTable.merge_bucket (a b : HashTable) (h : ℕ)
    (hlen : (a.table h).length + (b.table h).length ≤ a.depth) :
    (a.merge b).table h
      = a.table h ++ (b.table h).map (fun e => (e.1 + a.names.length, e.2)) := by
  show ((a.table h ++ _).take a.depth) = _
  apply List.take_of_length_le
  rw [List.length_append, List.length_map]
  exact hlen

theorem HashTable.merge_len (a b : HashTable) (h : ℕ)
    (hlen : (a.table h).length + (b.table h).length ≤ a.depth) :
    ((a.merge b).table h).length = (a.table h).length + (b.table h).length := by
  rw [HashTable.merge_bucket a b h hlen, List.length_append, List.length_map]

theorem HashTable.merge_wfAt {a b : HashTable} {h : ℕ}
    (hwfa : a.wfAt h) (hwfb : b.wfAt h) : (a.merge b).wfAt h := by
  intro e he
  have he' := List.take_subset _ _ he
  show e.1 < (a.names ++ b.names).length
  rw [List.length_append]
  rcases List.mem_append.mp he' with h1 | h1
  · have := hwfa e h1
    omega
  · obtain ⟨p, hp, rfl⟩ := List.mem_map.mp h1
    have := hwfb p hp
    omega

theorem HashTable.obsBucket_merge (a b : HashTable) (h : ℕ) (hwf : a.wfAt h)
    (hlen : (a.table h).length + (b.table h).length ≤ a.depth) :
    (a.merge b).obsBucket h = a.obsBucket h + b.obsBucket h := by
  unfold HashTable.obsBucket
  rw [HashTable.merge_bucket a b h hlen, List.map_append]
  have hnames : (a.merge b).names = a.names ++ b.names := rfl
  rw [hnames]
  have h1 : (a.table h).map
        (fun e => ((a.names ++ b.names).getD e.1 "", e.2))
      = (a.table h).map (fun e => (a.names.getD e.1 "", e.2)) := by
    apply List.map_congr_left
    intro e he
    rw [List.getD_append _ _ _ _ (hwf e he)]
  have h2 : ((b.table h).map (fun e => (e.1 + a.names.length, e.2))).map
        (fun e => ((a.names ++ b.names).getD e.1 "", e.2))
      = (b.table h).map (fun e => (b.names.getD e.1 "", e.2)) := by
    rw [List.map_map]
    apply List.map_congr_left
    intro e _
    simp only [Function.comp_apply]
    rw [List.getD_append_right _ _ _ _ (by omega)]
    simp
  rw [h1, h2, ← Multiset.coe_add]

/-! ### Sequential builds and merge folds, per bucket -/

/-- Total number of entries a list of files sends to bucket `h`. -/
def filesCount (w : String → List (ℕ × ℕ)) (files : List String) (h : ℕ) : ℕ :=
  (files.map (fun f => bucketCount (w f) h)).sum

/-- Total observational contribution of a list of files to bucket `h`. -/
def filesContrib (w : String → List (ℕ × ℕ)) (maxtime : ℕ)
    (files : List String) (h : ℕ) : Multiset (String × ℕ) :=
  (files.map (fun f => fileContrib maxtime f (w f) h)).sum

theorem seqBuild_spec (w : String → List (ℕ × ℕ)) (files : List String)
    (ht : HashTable) (h : ℕ) (hwf : ht.wfAt h)
    (hlen : (ht.table h).length + filesCount w files h ≤ ht.depth) :
    (seqBuild w ht files).obsBucket h
        = ht.obsBucket h + filesContrib w ht.maxtime files h
    ∧ ((seqBuild w ht files).table h).length
        = (ht.table h).length + filesCount w files h
    ∧ (seqBuild w ht files).wfAt h
    ∧ (seqBuild w ht files).depth = ht.depth
    ∧ (seqBuild w ht files).maxtime = ht.maxtime
    ∧ (seqBuild w ht files).names = ht.names ++ files := by
  induction files generalizing ht with
  | nil =>
    refine ⟨?_, ?_, hwf, rfl, rfl, ?_⟩ <;>
      simp [seqBuild, filesContrib, filesCount]
  | cons f fs ih =>
    have hcount : filesCount w (f :: fs) h
        = bucketCount (w f) h + filesCount w fs h := by
      simp [filesCount]
    have hlen1 : (ht.table h).length + bucketCount (w f) h ≤ ht.depth := by
      rw [hcount] at hlen
      omega
    have hstep : seqBuild w ht (f :: fs) = seqBuild w (ht.store f (w f)) fs := rfl
    have hwf1 : (ht.store f (w f)).wfAt h := HashTable.store_wfAt f (w f) hwf
    have hlen1' : ((ht.store f (w f)).table h).length + filesCount w fs h
        ≤ (ht.store f (w f)).depth := by
      rw [HashTable.store_len ht f (w f) h hlen1]
      show _ ≤ ht.depth
      rw [hcount] at hlen
      omega
    obtain ⟨o1, l1, wf1, d1, m1, n1⟩ := ih (ht.store f (w f)) hwf1 hlen1'
    rw [hstep]
    refine ⟨?_, ?_, wf1, by rw [d1]; rfl, by rw [m1]; rfl, ?_⟩
    · rw [o1, HashTable.obsBucket_store ht f (w f) h hwf hlen1]
      have hmax : (ht.store f (w f)).maxtime = ht.maxtime := rfl
      rw [hmax]
      unfold filesContrib
      rw [List.map_cons, List.sum_cons, add_assoc]
    · rw [l1, HashTable.store_len ht f (w f) h hlen1, hcount]
      show _ = (ht.table h).length + (bucketCount (w f) h + filesCount w fs h)
      omega
    · rw [n1]
      show (ht.names ++ [f]) ++ fs = ht.names ++ f :: fs
      simp

/-- Per-bucket total size of a list of partial tables. -/
def partsLen (parts : List HashTable) (h : ℕ) : ℕ :=
  (parts.map (fun p => (p.table h).length)).sum

theorem foldMerge_spec (parts : List HashTable) (master : HashTable) (h : ℕ)
    (hwf : master.wfAt h) (hpwf : ∀ p ∈ parts, p.wfAt h)
    (hlen : (master.table h).length + partsLen parts h ≤ master.depth) :
    (parts.foldl HashTable.merge master).obsBucket h
        = master.obsBucket h + (parts.map (fun p => p.obsBucket h)).sum
    ∧ ((parts.foldl HashTable.merge master).table h).length
        = (master.table h).length + partsLen parts h
    ∧ (parts.foldl HashTable.merge master).wfAt h
    ∧ (parts.foldl HashTable.merge master).depth = master.depth
    ∧ (parts.foldl HashTable.merge master).maxtime = master.maxtime
    ∧ (parts.foldl HashTable.merge master).names
        = master.names ++ (parts.map HashTable.names).flatten := by
  induction parts generalizing master with
  | nil =>
    refine ⟨?_, ?_, hwf, rfl, rfl, ?_⟩ <;> simp [partsLen]
  | cons p ps ih =>
    have hcount : partsLen (p :: ps) h
        = (p.table h).length + partsLen ps h := by
      simp [partsLen]
    have hlen1 : (master.table h).length + (p.table h).length ≤ master.depth := by
      rw [hcount] at hlen
      omega
    have hwfp : p.wfAt h := hpwf p (List.mem_cons_self _ _)
    have hwf1 : (master.merge p).wfAt h := HashTable.merge_wfAt hwf hwfp
    have hlen1' : ((master.merge p).table h).length + partsLen ps h
        ≤ (master.merge p).depth := by
      rw [HashTable.merge_len master p h hlen1]
      show _ ≤ master.depth
      rw [hcount] at hlen
      omega
    obtain ⟨o1, l1, wf1, d1, m1, n1⟩ :=
      ih (master.merge p) hwf1 (fun q hq => hpwf q (List.mem_cons_of_mem _ hq))
        hlen1'
    have hstep : (p :: ps).foldl HashTable.merge master
        = ps.foldl HashTable.merge (master.merge p) := rfl
    rw [hstep]
    refine ⟨?_, ?_, wf1, by rw [d1]; rfl, by rw [m1]; rfl, ?_⟩
    · rw [o1, HashTable.obsBucket_merge master p h hwf hlen1,
        List.map_cons, List.sum_cons, add_assoc]
    · rw [l1, HashTable.merge_len master p h hlen1, hcount]
      omega
    · rw [n1]
      show (master.names ++ p.names) ++ _ = _
      simp [List.map_cons]

theorem HashTable.new_wfAt (hashbits depth maxtime : ℕ) (h : ℕ) :
    (HashTable.new hashbits depth maxtime).wfAt h := by
  intro e he
  exact absurd he (List.not_mem_nil e)

theorem seqBuild_wfAt (w : String → List (ℕ × ℕ)) (files : List String)
    {ht : HashTable} {h : ℕ} (hwf : ht.wfAt h) :
    (seqBuild w ht files).wfAt h := by
  induction files generalizing ht with
  | nil => exact hwf
  | cons f fs ih => exact ih (HashTable.store_wfAt f (w f) hwf)

theorem filesCount_flatten (w : String → List (ℕ × ℕ))
    (L : List (List String)) (h : ℕ) :
    filesCount w L.flatten h = (L.map (fun fl => filesCount w fl h)).sum := by
  unfold filesCount
  rw [List.map_flatten, List.sum_flatten, List.map_map]
  rfl

theorem filesContrib_flatten (w : String → List (ℕ × ℕ)) (maxtime : ℕ)
    (L : List (List String)) (h : ℕ) :
    filesContrib w maxtime L.flatten h
      = (L.map (fun fl => filesContrib w maxtime fl h)).sum := by
  unfold filesContrib
  rw [List.map_flatten, List.sum_flatten, List.map_map]
  rfl

/-- C1: whenever no bucket eviction occurs (the master's bucket plus all
incoming entries for that bucket fit in `depth`), folding partial indexes
built by `make_ht_from_list` (each with the master's `hashbits`, `depth`
and `maxtime`) into the master with `merge` — in any order — produces, at
every bucket, the same observational bucket contents (track name, masked
time) and the same track multiset as a single sequential build over the
union (concatenation) of the inputs, as performed by `do_cmd` for
`new`/`add`.  `fileParts'` is an arbitrary permutation of the partition
`fileParts`, so the fold is associative and commutative in effect. -/
theorem merge_fold_matches_seq_build
    (w : String → List (ℕ × ℕ)) (master : HashTable)
    (fileParts fileParts' : List (List String))
    (hperm : fileParts'.Perm fileParts) (h : ℕ)
    (hwf : master.wfAt h)
    (hnoev : (master.table h).length + filesCount w fileParts.flatten h
      ≤ master.depth) :
    ((fileParts'.map (fun fl => make_ht_from_list w fl master.hashbits
        master.depth master.maxtime)).foldl HashTable.merge master).obsBucket h
      = (seqBuild w master fileParts.flatten).obsBucket h
    ∧ ((fileParts'.map (fun fl => make_ht_from_list w fl master.hashbits
        master.depth master.maxtime)).foldl HashTable.merge master).trackSet
      = (seqBuild w master fileParts.flatten).trackSet := by
  have htotal : filesCount w fileParts.flatten h
      = (fileParts.map (fun fl => filesCount w fl h)).sum :=
    filesCount_flatten w fileParts h
  -- per-part no-eviction bound
  have hpart_le : ∀ fl ∈ fileParts', filesCount w fl h ≤ master.depth := by
    intro fl hfl
    have hmem : fl ∈ fileParts := hperm.mem_iff.mp hfl
    have hle : filesCount w fl h
        ≤ (fileParts.map (fun fl => filesCount w fl h)).sum :=
      List.single_le_sum (fun y _ => Nat.zero_le y) _
        (List.mem_map_of_mem _ hmem)
    omega
  -- facts about each partial table
  have hpart : ∀ fl ∈ fileParts',
      (make_ht_from_list w fl master.hashbits master.depth
        master.maxtime).obsBucket h = filesContrib w master.maxtime fl h
      ∧ ((make_ht_from_list w fl master.hashbits master.depth
        master.maxtime).table h).length = filesCount w fl h
      ∧ (make_ht_from_list w fl master.hashbits master.depth
        master.maxtime).names = fl := by
    intro fl hfl
    have hempty : (HashTable.new master.hashbits master.depth
        master.maxtime).table h = [] := rfl
    obtain ⟨o, l, _, _, _, n⟩ := seqBuild_spec w fl
      (HashTable.new master.hashbits master.depth master.maxtime) h
      (HashTable.new_wfAt _ _ _ h)
      (by rw [hempty]; simpa using hpart_le fl hfl)
    refine ⟨?_, ?_, by simpa using n⟩
    · rw [make_ht_from_list, o]
      have : (HashTable.new master.hashbits master.depth
          master.maxtime).obsBucket h = 0 := rfl
      rw [this, zero_add]
      rfl
    · rw [make_ht_from_list, l, hempty]
      simp
  have hpwf : ∀ p ∈ fileParts'.map (fun fl => make_ht_from_list w fl
      master.hashbits master.depth master.maxtime), p.wfAt h := by
    intro p hp
    obtain ⟨fl, _, rfl⟩ := List.mem_map.mp hp
    exact seqBuild_wfAt w fl (HashTable.new_wfAt _ _ _ h)
  have hplen : partsLen (fileParts'.map (fun fl => make_ht_from_list w fl
      master.hashbits master.depth master.maxtime)) h
      = (fileParts'.map (fun fl => filesCount w fl h)).sum := by
    unfold partsLen
    rw [List.map_map]
    congr 1
    apply List.map_congr_left
    intro fl hfl
    exact (hpart fl hfl).2.1
  have hsum_perm : (fileParts'.map (fun fl => filesCount w fl h)).sum
      = (fileParts.map (fun fl => filesCount w fl h)).sum :=
    (hperm.map _).sum_eq
  obtain ⟨om, lm, _, _, _, nm⟩ := foldMerge_spec
    (fileParts'.map (fun fl => make_ht_from_list w fl master.hashbits
      master.depth master.maxtime)) master h hwf hpwf
    (by rw [hplen, hsum_perm]; omega)
  obtain ⟨os, ls, _, _, _, ns⟩ := seqBuild_spec w fileParts.flatten master h
    hwf hnoev
  constructor
  · rw [om, os]
    congr 1
    rw [List.map_map]
    have hmapped : (fileParts'.map ((fun p => p.obsBucket h) ∘
        (fun fl => make_ht_from_list w fl master.hashbits master.depth
          master.maxtime)))
        = fileParts'.map (fun fl => filesContrib w master.maxtime fl h) := by
      apply List.map_congr_left
      intro fl hfl
      exact (hpart fl hfl).1
    rw [hmapped, filesContrib_flatten]
    exact ((hperm.map _).sum_eq)
  · unfold HashTable.trackSet
    rw [nm, ns]
    have hnames : (fileParts'.map (fun fl => make_ht_from_list w fl
        master.hashbits master.depth master.maxtime)).map HashTable.names
        = fileParts' := by
      rw [List.map_map]
      have : ∀ fl ∈ fileParts', (HashTable.names ∘
          (fun fl => make_ht_from_list w fl master.hashbits master.depth
            master.maxtime)) fl = id fl := by
        intro fl hfl
        exact (hpart fl hfl).2.2
      rw [List.map_congr_left this, List.map_id]
    rw [hnames]
    rw [← Multiset.coe_add, ← Multiset.coe_add]
    congr 1
    exact Multiset.coe_eq_coe.mpr hperm.flatten

/-- Witness for C1: two one-file partial builds merged in swapped order
match the sequential build of both files, at bucket 3. -/
theorem merge_fold_matches_seq_build_witness :
    (((([["b"], ["a"]] : List (List String))).map
        (fun fl => make_ht_from_list (fun f => if f = "a" then [(3, 5)]
          else [(3, 7), (4, 2)]) fl (HashTable.new 20 100 16384).hashbits
          (HashTable.new 20 100 16384).depth
          (HashTable.new 20 100 16384).maxtime)).foldl HashTable.merge
        (HashTable.new 20 100 16384)).obsBucket 3
      = (seqBuild (fun f => if f = "a" then [(3, 5)] else [(3, 7), (4, 2)])
          (HashTable.new 20 100 16384) ([["a"], ["b"]] : List (List String)).flatten).obsBucket 3
    ∧ (((([["b"], ["a"]] : List (List String))).map
        (fun fl => make_ht_from_list (fun f => if f = "a" then [(3, 5)]
          else [(3, 7), (4, 2)]) fl (HashTable.new 20 100 16384).hashbits
          (HashTable.new 20 100 16384).depth
          (HashTable.new 20 100 16384).maxtime)).foldl HashTable.merge
        (HashTable.new 20 100 16384)).trackSet
      = (seqBuild (fun f => if f = "a" then [(3, 5)] else [(3, 7), (4, 2)])
          (HashTable.new 20 100 16384) ([["a"], ["b"]] : List (List String)).flatten).trackSet :=
  merge_fold_matches_seq_build
    (fun f => if f = "a" then [(3, 5)] else [(3, 7), (4, 2)])
    (HashTable.new 20 100 16384) [["a"], ["b"]] [["b"], ["a"]]
    (by decide) 3 (HashTable.new_wfAt _ _ _ 3) (by decide)

/-! ### The round-robin file distribution of `multiproc_add` -/

theorem seqBuild_params (w : String → List (ℕ × ℕ)) (files : List String)
    (ht : HashTable) :
    (seqBuild w ht files).hashbits = ht.hashbits
    ∧ (seqBuild w ht files).depth = ht.depth
    ∧ (seqBuild w ht files).maxtime = ht.maxtime := by
  induction files generalizing ht with
  | nil => exact ⟨rfl, rfl, rfl⟩
  | cons f fs ih => exact ih (ht.store f (w f))

theorem seqBuild_names (w : String → List (ℕ × ℕ)) (files : List String)
    (ht : HashTable) : (seqBuild w ht files).names = ht.names ++ files := by
  induction files generalizing ht with
  | nil => simp [seqBuild]
  | cons f fs ih =>
    have : seqBuild w ht (f :: fs) = seqBuild w (ht.store f (w f)) fs := rfl
    rw [this, ih]
    show (ht.names ++ [f]) ++ fs = ht.names ++ f :: fs
    simp

theorem assignLoop_length (ncores : ℕ) (files : List String) :
    ∀ (n : ℕ) (init : List (List String)),
      ((files.enumFrom n).foldl
        (fun lists p =>
          lists.set (p.1 % ncores) (lists.getD (p.1 % ncores) [] ++ [p.2]))
        init).length = init.length := by
  induction files with
  | nil => intro n init; simp [List.enumFrom_nil]
  | cons f fs ih =>
    intro n init
    rw [List.enumFrom_cons, List.foldl_cons, ih]
    exact List.length_set _ _ _

theorem assignLoop_getD (ncores : ℕ) (files : List String) (hpos : 0 < ncores) :
    ∀ (n : ℕ) (init : List (List String)), init.length = ncores → ∀ j,
      ((files.enumFrom n).foldl
        (fun lists p =>
          lists.set (p.1 % ncores) (lists.getD (p.1 % ncores) [] ++ [p.2]))
        init).getD j []
      = init.getD j []
        ++ ((files.enumFrom n).filter
          (fun p => decide (p.1 % ncores = j))).map Prod.snd := by
  induction files with
  | nil => intro n init _ j; simp [List.enumFrom_nil]
  | cons f fs ih =>
    intro n init hinit j
    rw [List.enumFrom_cons, List.foldl_cons]
    have hk : n % ncores < init.length := by
      rw [hinit]
      exact Nat.mod_lt _ hpos
    rw [ih (n + 1) (init.set (n % ncores) (init.getD (n % ncores) [] ++ [f]))
      (by rw [List.length_set]; exact hinit) j]
    rw [List.filter_cons]
    by_cases hj : n % ncores = j
    · subst hj
      rw [List.getD_eq_getElem?_getD (init.set _ _) (n % ncores),
        List.getElem?_set_self hk, Option.getD_some,
        if_pos (by simp), List.map_cons, List.append_assoc]
      rfl
    · rw [List.getD_eq_getElem?_getD (init.set _ _) j,
        List.getElem?_set_ne hj, ← List.getD_eq_getElem?_getD init j,
        if_neg (by simp [hj])]

theorem assignFiles_length (ncores : ℕ) (files : List String) :
    (assignFiles ncores files).length = ncores := by
  unfold assignFiles
  rw [show files.enum = files.enumFrom 0 from rfl, assignLoop_length]
  exact List.length_replicate _ _

theorem assignFiles_getD (ncores : ℕ) (files : List String) (hpos : 0 < ncores)
    (j : ℕ) :
    (assignFiles ncores files).getD j []
      = (files.enum.filter (fun p => decide (p.1 % ncores = j))).map Prod.snd := by
  unfold assignFiles
  rw [show files.enum = files.enumFrom 0 from rfl,
    assignLoop_getD ncores files hpos 0 _ (List.length_replicate _ _) j]
  rw [List.getD_eq_getElem?_getD]
  cases hlt : decide (j < ncores) with
  | true =>
    rw [List.getElem?_eq_getElem (by simp; exact of_decide_eq_true hlt)]
    simp [List.getElem_replicate]
  | false =>
    rw [List.getElem?_eq_none (by simp; exact Nat.le_of_not_lt (of_decide_eq_false hlt))]
    simp

theorem assignPartition (ncores : ℕ) (hpos : 0 < ncores) (files : List String) :
    ∀ n : ℕ,
      (∑ j ∈ Finset.range ncores,
        ((((files.enumFrom n).filter
          (fun p => decide (p.1 % ncores = j))).map Prod.snd : List String)
            : Multiset String))
      = (files : Multiset String) := by
  induction files with
  | nil => intro n; simp [List.enumFrom_nil]
  | cons f fs ih =>
    intro n
    rw [List.enumFrom_cons]
    have hterm : ∀ j,
        (((((n, f) :: fs.enumFrom (n + 1)).filter
          (fun p => decide (p.1 % ncores = j))).map Prod.snd : List String)
            : Multiset String)
        = (if n % ncores = j then ({f} : Multiset String) else 0)
          + ((((fs.enumFrom (n + 1)).filter
            (fun p => decide (p.1 % ncores = j))).map Prod.snd : List String)
              : Multiset String) := by
      intro j
      rw [List.filter_cons]
      by_cases hj : n % ncores = j
      · subst hj
        rw [if_pos (by simp), List.map_cons, ← Multiset.cons_coe,
          ← Multiset.singleton_add, if_pos rfl]
      · rw [if_neg (by simp [hj]), if_neg hj, zero_add]
    rw [Finset.sum_congr rfl (fun j _ => hterm j), Finset.sum_add_distrib,
      Finset.sum_ite_eq, if_pos (Finset.mem_range.mpr (Nat.mod_lt _ hpos)),
      ih (n + 1), Multiset.singleton_add, Multiset.cons_coe]

theorem range_map_getD {α β : Type} (l : List α) (d : α) (f : α → β) :
    (List.range l.length).map (fun i => f (l.getD i d)) = l.map f := by
  apply List.ext_get
  · simp
  · intro n h1 h2
    simp only [List.get_eq_getElem, List.getElem_map, List.getElem_range]
    rw [List.getD_eq_getElem l d (by simpa using h2)]

/-- C2: in the parallel new/add path, file number `i` is assigned to worker
`i % ncores`; the worker lists partition the input (each input file lands
in exactly one worker list, and together the lists hold exactly the input
multiset); every worker builds a fresh private table via
`make_ht_from_list` with exactly the master's `hashbits`, `depth` and
`maxtime`, whose track table is exactly its own assigned file list; and
`multiproc_add` folds exactly these per-worker tables into the master
(the workers' tables are functions of their file lists and the three
parameters alone, never of the master's contents). -/
theorem multiproc_add_partitions_and_private_tables
    (w : String → List (ℕ × ℕ)) (master : HashTable) (files : List String)
    (ncores : ℕ) (hpos : 0 < ncores) :
    (assignFiles ncores files).length = ncores
    ∧ (∀ i, (hi : i < files.length) →
        files.get ⟨i, hi⟩ ∈ (assignFiles ncores files).getD (i % ncores) [])
    ∧ (∑ j ∈ Finset.range ncores,
        (((assignFiles ncores files).getD j [] : List String)
          : Multiset String)) = (files : Multiset String)
    ∧ (∀ j, j < ncores →
        (make_ht_from_list w ((assignFiles ncores files).getD j [])
          master.hashbits master.depth master.maxtime).hashbits
            = master.hashbits
        ∧ (make_ht_from_list w ((assignFiles ncores files).getD j [])
          master.hashbits master.depth master.maxtime).depth = master.depth
        ∧ (make_ht_from_list w ((assignFiles ncores files).getD j [])
          master.hashbits master.depth master.maxtime).maxtime
            = master.maxtime
        ∧ (make_ht_from_list w ((assignFiles ncores files).getD j [])
          master.hashbits master.depth master.maxtime).names
            = (assignFiles ncores files).getD j [])
    ∧ multiproc_add w master files ncores
      = ((List.range ncores).map
          (fun j => make_ht_from_list w ((assignFiles ncores files).getD j [])
            master.hashbits master.depth master.maxtime)).foldl
          HashTable.merge master := by
  refine ⟨assignFiles_length ncores files, ?_, ?_, ?_, ?_⟩
  · intro i hi
    rw [assignFiles_getD ncores files hpos]
    have henum : (i, files.get ⟨i, hi⟩) ∈ files.enum := by
      have hlen : i < files.enum.length := by simpa using hi
      have := List.getElem_enum files i hlen
      have hmem := List.getElem_mem hlen
      rw [this] at hmem
      simpa using hmem
    have hfilt : (i, files.get ⟨i, hi⟩) ∈ files.enum.filter
        (fun p => decide (p.1 % ncores = i % ncores)) :=
      List.mem_filter.mpr ⟨henum, by simp⟩
    exact List.mem_map_of_mem Prod.snd hfilt
  · rw [Finset.sum_congr rfl
      (fun j _ => by rw [assignFiles_getD ncores files hpos j])]
    exact assignPartition ncores hpos files 0
  · intro j _
    obtain ⟨hb, hd, hm⟩ := seqBuild_params w
      ((assignFiles ncores files).getD j [])
      (HashTable.new master.hashbits master.depth master.maxtime)
    refine ⟨hb, hd, hm, ?_⟩
    rw [make_ht_from_list, seqBuild_names]
    rfl
  · unfold multiproc_add
    congr 1
    have hr := range_map_getD (assignFiles ncores files) []
      (fun fl => make_ht_from_list w fl master.hashbits master.depth
        master.maxtime)
    rw [assignFiles_length] at hr
    exact hr.symm

/-- Witness for C2 at `ncores = 2`, three files. -/
theorem multiproc_add_partitions_and_private_tables_witness :
    (assignFiles 2 ["x", "y", "z"]).length = 2
    ∧ (∀ i, (hi : i < (["x", "y", "z"] : List String).length) →
        (["x", "y", "z"] : List String).get ⟨i, hi⟩
          ∈ (assignFiles 2 ["x", "y", "z"]).getD (i % 2) [])
    ∧ (∑ j ∈ Finset.range 2,
        (((assignFiles 2 ["x", "y", "z"]).getD j [] : List String)
          : Multiset String)) = ((["x", "y", "z"] : List String)
            : Multiset String)
    ∧ (∀ j, j < 2 →
        (make_ht_from_list (fun _ => [(1, 2)])
          ((assignFiles 2 ["x", "y", "z"]).getD j [])
          (HashTable.new 20 100 16384).hashbits
          (HashTable.new 20 100 16384).depth
          (HashTable.new 20 100 16384).maxtime).hashbits
            = (HashTable.new 20 100 16384).hashbits
        ∧ (make_ht_from_list (fun _ => [(1, 2)])
          ((assignFiles 2 ["x", "y", "z"]).getD j [])
          (HashTable.new 20 100 16384).hashbits
          (HashTable.new 20 100 16384).depth
          (HashTable.new 20 100 16384).maxtime).depth
            = (HashTable.new 20 100 16384).depth
        ∧ (make_ht_from_list (fun _ => [(1, 2)])
          ((assignFiles 2 ["x", "y", "z"]).getD j [])
          (HashTable.new 20 100 16384).hashbits
          (HashTable.new 20 100 16384).depth
          (HashTable.new 20 100 16384).maxtime).maxtime
            = (HashTable.new 20 100 16384).maxtime
        ∧ (make_ht_from_list (fun _ => [(1, 2)])
          ((assignFiles 2 ["x", "y", "z"]).getD j [])
          (HashTable.new 20 100 16384).hashbits
          (HashTable.new 20 100 16384).depth
          (HashTable.new 20 100 16384).maxtime).names
            = (assignFiles 2 ["x", "y", "z"]).getD j [])
    ∧ multiproc_add (fun _ => [(1, 2)]) (HashTable.new 20 100 16384)
        ["x", "y", "z"] 2
      = ((List.range 2).map
          (fun j => make_ht_from_list (fun _ => [(1, 2)])
            ((assignFiles 2 ["x", "y", "z"]).getD j [])
            (HashTable.new 20 100 16384).hashbits
            (HashTable.new 20 100 16384).depth
            (HashTable.new 20 100 16384).maxtime)).foldl
          HashTable.merge (HashTable.new 20 100 16384) :=
  multiproc_add_partitions_and_private_tables (fun _ => [(1, 2)])
    (HashTable.new 20 100 16384) ["x", "y", "z"] 2 (by decide)

/-- C3: the gather phase of `multiproc_add` reads each worker's completed
table from that worker's own pipe and merges them into the master in the
fixed worker order 0, 1, …, ncores-1 — a deterministic left-to-right fold
performed by the single owner of the master table — irrespective of the
process-completion order `finished`, provided every dispatched worker
eventually finishes. -/
theorem multiproc_gather_fixed_order (master : HashTable)
    (results : ℕ → HashTable) (finished : List ℕ) (ncores : ℕ)
    (hall : ∀ c, c < ncores → c ∈ finished) :
    multiproc_gather master results finished ncores
      = some (((List.range ncores).map results).foldl HashTable.merge master) := by
  have key : ∀ (l : List ℕ) (acc : HashTable), (∀ c ∈ l, c ∈ finished) →
      gatherLoop results finished acc l
        = some ((l.map results).foldl HashTable.merge acc) := by
    intro l
    induction l with
    | nil => intro acc _; rfl
    | cons c rest ih =>
      intro acc hl
      unfold gatherLoop
      rw [if_pos (hl c (List.mem_cons_self _ _))]
      exact ih _ (fun d hd => hl d (List.mem_cons_of_mem _ hd))
  exact key (List.range ncores) master (fun c hc => hall c (List.mem_range.mp hc))

/-- Witness for C3: two workers finishing in reverse order 1, 0 still
gather as the fold merge(merge(master, r 0), r 1). -/
theorem multiproc_gather_fixed_order_witness :
    multiproc_gather (HashTable.new 20 100 16384)
        (fun c => HashTable.new 20 100 c) [1, 0] 2
      = some (((List.range 2).map (fun c => HashTable.new 20 100 c)).foldl
          HashTable.merge (HashTable.new 20 100 16384)) :=
  multiproc_gather_fixed_order (HashTable.new 20 100 16384)
    (fun c => HashTable.new 20 100 c) [1, 0] 2 (by decide)

/-! ## The main routine (`main`, audfprint.py lines 318-404)

The command string is taken as already extracted by docopt (the model's
claims hypothesize the concrete command).  The analyzer and the matcher are
opaque to the observables here except for the analyzer's configuration;
`wavfile2hashes` stands for the analyzer's file-to-hash-stream computation
and `loadIndex` for the saved-table content of the filesystem. -/

/-- The docopt argument set as far as `main` consumes it. -/
structure MainArgs where
  dbase : Option String
  density : ℚ
  hashbits : ℕ
  bucketsize : ℕ
  maxtime : ℕ
  samplerate : ℤ
  shifts : ℤ
  freqSd : ℚ
  fanout : ℤ
  pksPerFrame : ℤ
  ncores : ℤ
  files : List String

/-- Observable events of a `main` run, in program order. -/
inductive Effect where
  | processedFile (name : String)
  | warnedSamplerate (dbase : String)
  | savedDb (dbase : String)
deriving DecidableEq

/-- What a successful `main` run leaves behind. -/
structure MainOutcome where
  analyzer : Option Analyzer
  hash_tab : Option HashTable
  trace : List Effect

/-- Modelled from the spec: loading a saved table
(`hash_table.HashTable(filename)`, spec §4.3 `load`): the persisted header,
name table and buckets are read back; a freshly loaded index carries no
unsaved mutation, so it is clean (`dirty` becomes true only on store/merge
and gates persistence, §3). -/
def loadTable (loadIndex : String → HashTable) (fn : String) : HashTable :=
  { loadIndex fn with dirty := false }

/-- The samplerate-adoption step of `main` (audfprint.py lines 355-358):
only when an analyzer exists and the loaded table stores a samplerate that
differs from the analyzer's is the analyzer's target rate overwritten. -/
def adoptSamplerate (analyzer : Option Analyzer) (tabSr : Option ℤ) :
    Option Analyzer :=
  match analyzer, tabSr with
  | some a, some sr =>
    if sr ≠ a.target_sr then some { a with target_sr := sr } else some a
  | a, _ => a

/-- Whether the samplerate warning of `main` (audfprint.py lines 358-359)
is printed. -/
def samplerateWarn (analyzer : Option Analyzer) (tabSr : Option ℤ) : Bool :=
  match analyzer, tabSr with
  | some a, some sr => decide (sr ≠ a.target_sr)
  | _, _ => false

/-- Model of `do_cmd` (audfprint.py lines 112-148), per command: `merge` loads each
named file as a table and merges it in; `precompute` and `match` only
process the files (matching reads the table but never writes it);
`new`/`add` ingests every file in order; anything else raises
`ValueError("unrecognized command: "+cmd)`. -/
def do_cmd (loadIndex : String → HashTable) (w : String → List (ℕ × ℕ))
    (cmd : String) (hash_tab : Option HashTable) (files : List String) :
    Except String (Option HashTable × List Effect) :=
  if cmd = "merge" then
    .ok (hash_tab.map (fun t =>
        files.foldl (fun acc fn => acc.merge (loadTable loadIndex fn)) t),
      files.map Effect.processedFile)
  else if cmd = "precompute" then
    .ok (hash_tab, files.map Effect.processedFile)
  else if cmd = "match" then
    .ok (hash_tab, files.map Effect.processedFile)
  else if cmd = "new" ∨ cmd = "add" then
    .ok (hash_tab.map (fun t => seqBuild w t files),
      files.map Effect.processedFile)
  else .error ("unrecognized command: " ++ cmd)

/-- Model of `do_cmd_multiproc` (audfprint.py lines 192-224): `precompute` and
`match` farm the files out read-only; `new`/`add` runs `multiproc_add`;
`merge` or anything else raises
`ValueError("unrecognized multiproc command: "+cmd)`. -/
def do_cmd_multiproc (w : String → List (ℕ × ℕ)) (cmd : String)
    (hash_tab : Option HashTable) (files : List String) (ncores : ℤ) :
    Except String (Option HashTable × List Effect) :=
  if cmd = "precompute" then
    .ok (hash_tab, files.map Effect.processedFile)
  else if cmd = "match" then
    .ok (hash_tab, files.map Effect.processedFile)
  else if cmd = "new" ∨ cmd = "add" then
    .ok (hash_tab.map (fun t => multiproc_add w t files ncores.toNat),
      files.map Effect.processedFile)
  else .error ("unrecognized multiproc command: " ++ cmd)

/-- The analyzer configuration `main` passes to `setup_analyzer`
(`args['match']` is true exactly when the chosen command is `match`). -/
def mainAnalyzerArgs (cmd : String) (args : MainArgs) : AnalyzerArgs :=
  { density := args.density, pksPerFrame := args.pksPerFrame
    fanout := args.fanout, freqSd := args.freqSd, shiftsArg := args.shifts
    samplerate := args.samplerate, matchCmd := cmd = "match" }

/-- The analyzer of `main` (line 334): set up unless the command is
`merge`. -/
def mainAnalyzer (cmd : String) (args : MainArgs) : Option Analyzer :=
  if cmd ≠ "merge" then some (setup_analyzer (mainAnalyzerArgs cmd args))
  else none

/-- The hash table `main` sets up once a database name is present
(lines 345-354): a fresh table recording the analyzer's samplerate for
`new`, the loaded database for `add`/`match`/`merge`. -/
def initialTab (loadIndex : String → HashTable) (cmd : String)
    (args : MainArgs) (dbasename : String) : HashTable :=
  if cmd = "new" then
    { HashTable.new args.hashbits args.bucketsize args.maxtime with
        samplerate := some (setup_analyzer (mainAnalyzerArgs cmd args)).target_sr }
  else loadTable loadIndex dbasename

/-- The dispatch of `main` (lines 386-393): multiprocess when
`ncores > 1 and cmd != "merge"`, single-core otherwise. -/
def runCmd (loadIndex : String → HashTable) (w : String → List (ℕ × ℕ))
    (cmd : String) (tab : Option HashTable) (args : MainArgs) :
    Except String (Option HashTable × List Effect) :=
  if usesMultiproc cmd args.ncores then
    do_cmd_multiproc w cmd tab args.files args.ncores
  else do_cmd loadIndex w cmd tab args.files

/-- The save step of `main` (lines 402-404): save only when a table exists
and is dirty. -/
def saveTraceOf (dbasename : String) : Option HashTable → List Effect
  | some t => if t.dirty then [Effect.savedDb dbasename] else []
  | none => []

/-- Combine the run result with the final save step (lines 402-404). -/
def finishRun (dbasename : String) (analyzer2 : Option Analyzer)
    (warnTrace : List Effect) :
    Except String (Option HashTable × List Effect) →
      Except String MainOutcome
  | .error e => .error e
  | .ok (tab1, trace1) =>
    .ok { analyzer := analyzer2, hash_tab := tab1
          trace := warnTrace ++ trace1 ++ saveTraceOf dbasename tab1 }

/-- Model of `main` (audfprint.py lines 318-404): set up the analyzer (unless
`merge`); for every command except `precompute` require `--dbase` (raising
`ValueError` before any file is touched when it is missing), create the
table for `new` (recording the analyzer's samplerate) or load it otherwise
(adopting the stored samplerate, with a warning, on mismatch); run the
command through `do_cmd_multiproc` when `ncores > 1 and cmd != "merge"`,
else through `do_cmd`; finally save the table only if one exists and is
dirty. -/
def main_model (loadIndex : String → HashTable)
    (w : String → List (ℕ × ℕ)) (cmd : String) (args : MainArgs) :
    Except String MainOutcome :=
  if cmd = "precompute" then
    -- no database name needed; hash_tab is None
    match runCmd loadIndex w cmd none args with
    | .error e => .error e
    | .ok (tab1, trace1) =>
      .ok { analyzer := mainAnalyzer cmd args, hash_tab := tab1
            trace := trace1 }
  else
    match args.dbase with
    | none => .error "dbase name must be provided if not precompute"
    | some dbasename =>
      finishRun dbasename
        (adoptSamplerate (mainAnalyzer cmd args)
          (initialTab loadIndex cmd args dbasename).samplerate)
        (if samplerateWarn (mainAnalyzer cmd args)
            (initialTab loadIndex cmd args dbasename).samplerate then
          [Effect.warnedSamplerate dbasename]
        else [])
        (runCmd loadIndex w cmd (some (initialTab loadIndex cmd args dbasename))
          args)

/-! ### Inversion facts about command runs -/

theorem do_cmd_ok_inv {loadIndex : String → HashTable}
    {w : String → List (ℕ × ℕ)} {cmd : String} {tab : Option HashTable}
    {files : List String} {tab1 : Option HashTable} {tr : List Effect}
    (hok : do_cmd loadIndex w cmd tab files = .ok (tab1, tr)) :
    tr = files.map Effect.processedFile
    ∧ tab1.isSome = tab.isSome
    ∧ (cmd = "match" → tab1 = tab) := by
  unfold do_cmd at hok
  split_ifs at hok with h1 h2 h3 h4
  · simp only [Except.ok.injEq, Prod.mk.injEq] at hok
    obtain ⟨h5, h6⟩ := hok
    subst h5
    subst h6
    refine ⟨rfl, Option.isSome_map, ?_⟩
    intro he
    rw [he] at h1
    exact absurd h1 (by decide)
  · simp only [Except.ok.injEq, Prod.mk.injEq] at hok
    obtain ⟨h5, h6⟩ := hok
    subst h5
    subst h6
    exact ⟨rfl, rfl, fun _ => rfl⟩
  · simp only [Except.ok.injEq, Prod.mk.injEq] at hok
    obtain ⟨h5, h6⟩ := hok
    subst h5
    subst h6
    exact ⟨rfl, rfl, fun _ => rfl⟩
  · simp only [Except.ok.injEq, Prod.mk.injEq] at hok
    obtain ⟨h5, h6⟩ := hok
    subst h5
    subst h6
    refine ⟨rfl, Option.isSome_map, ?_⟩
    intro he
    exact absurd he h3

theorem do_cmd_multiproc_ok_inv {w : String → List (ℕ × ℕ)} {cmd : String}
    {tab : Option HashTable} {files : List String} {ncores : ℤ}
    {tab1 : Option HashTable} {tr : List Effect}
    (hok : do_cmd_multiproc w cmd tab files ncores = .ok (tab1, tr)) :
    tr = files.map Effect.processedFile
    ∧ tab1.isSome = tab.isSome
    ∧ (cmd = "match" → tab1 = tab) := by
  unfold do_cmd_multiproc at hok
  split_ifs at hok with h1 h2 h3
  · simp only [Except.ok.injEq, Prod.mk.injEq] at hok
    obtain ⟨h5, h6⟩ := hok
    subst h5
    subst h6
    exact ⟨rfl, rfl, fun _ => rfl⟩
  · simp only [Except.ok.injEq, Prod.mk.injEq] at hok
    obtain ⟨h5, h6⟩ := hok
    subst h5
    subst h6
    exact ⟨rfl, rfl, fun _ => rfl⟩
  · simp only [Except.ok.injEq, Prod.mk.injEq] at hok
    obtain ⟨h5, h6⟩ := hok
    subst h5
    subst h6
    refine ⟨rfl, Option.isSome_map, ?_⟩
    intro he
    exact absurd he h2

/-- Inversion of the dispatch step of `main` (line 386 together with the
two run functions). -/
theorem runCmd_ok_inv {loadIndex : String → HashTable}
    {w : String → List (ℕ × ℕ)} {cmd : String} {tab : Option HashTable}
    {args : MainArgs} {tab1 : Option HashTable} {tr : List Effect}
    (hok : runCmd loadIndex w cmd tab args = .ok (tab1, tr)) :
    tr = args.files.map Effect.processedFile
    ∧ tab1.isSome = tab.isSome
    ∧ (cmd = "match" → tab1 = tab) := by
  unfold runCmd at hok
  split_ifs at hok
  · exact do_cmd_multiproc_ok_inv hok
  · exact do_cmd_ok_inv hok

/-- C4: for every command other than `precompute` (`new`, `add`, `match`,
`merge`), a missing `--dbase` makes `main` raise
`ValueError("dbase name must be provided if not precompute")` — the run
yields no outcome at all, so no input file is processed and no persisted
state is touched; for `precompute` no database name is required, the run
succeeds with `hash_tab = None` and nothing is ever saved. -/
theorem main_dbase_required (loadIndex : String → HashTable)
    (w : String → List (ℕ × ℕ)) (args : MainArgs) :
    (∀ cmd, cmd ∈ (["new", "add", "match", "merge"] : List String) →
      args.dbase = none →
      main_model loadIndex w cmd args
        = .error "dbase name must be provided if not precompute")
    ∧ (∃ outcome, main_model loadIndex w "precompute" args = .ok outcome
        ∧ outcome.hash_tab = none
        ∧ ∀ d, Effect.savedDb d ∉ outcome.trace) := by
  constructor
  · intro cmd hcmd hdb
    simp only [List.mem_cons, List.not_mem_nil, or_false] at hcmd
    rcases hcmd with rfl | rfl | rfl | rfl <;>
      simp [main_model, hdb]
  · refine ⟨⟨some (setup_analyzer ⟨args.density, args.pksPerFrame,
      args.fanout, args.freqSd, args.shifts, args.samplerate, false⟩),
      none, args.files.map Effect.processedFile⟩, ?_, rfl, ?_⟩
    · cases hm : usesMultiproc "precompute" args.ncores <;>
        simp [main_model, runCmd, hm, do_cmd, do_cmd_multiproc,
          mainAnalyzer, mainAnalyzerArgs]
    · intro d hmem
      simp only [List.mem_map] at hmem
      obtain ⟨f, _, heq⟩ := hmem
      exact Effect.noConfusion heq

/-- Witness for C4: a `new` run without `--dbase` errors out. -/
theorem main_dbase_required_witness :
    main_model (fun _ => HashTable.new 20 100 16384) (fun _ => []) "new"
      ⟨none, 20, 20, 100, 16384, 11025, 0, 30, 3, 5, 1, ["x"]⟩
      = .error "dbase name must be provided if not precompute" :=
  (main_dbase_required (fun _ => HashTable.new 20 100 16384) (fun _ => [])
    ⟨none, 20, 20, 100, 16384, 11025, 0, 30, 3, 5, 1, ["x"]⟩).1 "new"
    (by simp) rfl

/-- C5: whenever `main` completes, the database was saved exactly when a
hash table exists at the end and its dirty flag is set; in particular a
pure `match` run (which loads the table — clean — and never mutates it)
never saves, leaving the database file on disk untouched. -/
theorem main_save_gated_by_dirty (loadIndex : String → HashTable)
    (w : String → List (ℕ × ℕ)) (cmd : String) (args : MainArgs)
    (outcome : MainOutcome)
    (hok : main_model loadIndex w cmd args = .ok outcome) :
    ((∃ d, Effect.savedDb d ∈ outcome.trace)
      ↔ ∃ t, outcome.hash_tab = some t ∧ t.dirty = true)
    ∧ (cmd = "match" → ∀ d, Effect.savedDb d ∉ outcome.trace) := by
  unfold main_model at hok
  by_cases hpre : cmd = "precompute"
  · rw [if_pos hpre] at hok
    cases hrun : runCmd loadIndex w cmd none args with
    | error e =>
      rw [hrun] at hok
      exact absurd hok (by simp)
    | ok p =>
      obtain ⟨tab1, tr1⟩ := p
      rw [hrun] at hok
      simp only [Except.ok.injEq] at hok
      subst hok
      obtain ⟨htr, hsome, _⟩ := runCmd_ok_inv hrun
      have htab : tab1 = none := by
        cases tab1 with
        | none => rfl
        | some t => simp at hsome
      subst htab
      subst htr
      constructor
      · constructor
        · rintro ⟨d, hd⟩
          simp only [List.mem_map] at hd
          obtain ⟨f, _, heq⟩ := hd
          exact Effect.noConfusion heq
        · rintro ⟨t, ht, _⟩
          exact Option.noConfusion ht
      · intro _ d hd
        simp only [List.mem_map] at hd
        obtain ⟨f, _, heq⟩ := hd
        exact Effect.noConfusion heq
  · rw [if_neg hpre] at hok
    cases hdb : args.dbase with
    | none =>
      rw [hdb] at hok
      exact absurd hok (by simp)
    | some dbasename =>
      simp only [hdb] at hok
      cases hrun : runCmd loadIndex w cmd
          (some (initialTab loadIndex cmd args dbasename)) args with
      | error e =>
        rw [hrun] at hok
        exact absurd hok (by simp [finishRun])
      | ok p =>
        obtain ⟨tab1, tr1⟩ := p
        rw [hrun] at hok
        simp only [finishRun, Except.ok.injEq] at hok
        subst hok
        obtain ⟨htr, hsome, hmatch⟩ := runCmd_ok_inv hrun
        subst htr
        obtain ⟨t, rfl⟩ : ∃ t, tab1 = some t := by
          cases tab1 with
          | none => simp at hsome
          | some t => exact ⟨t, rfl⟩
        have hmem : ∀ d2, Effect.savedDb d2 ∈
            (if samplerateWarn (mainAnalyzer cmd args)
                (initialTab loadIndex cmd args dbasename).samplerate then
              [Effect.warnedSamplerate dbasename] else [])
            ++ args.files.map Effect.processedFile
            ++ saveTraceOf dbasename (some t)
            ↔ (t.dirty = true ∧ d2 = dbasename) := by
          intro d2
          constructor
          · intro hd
            rcases List.mem_append.mp hd with hd | hd
            · rcases List.mem_append.mp hd with hd | hd
              · exfalso
                revert hd
                split_ifs <;> simp
              · exfalso
                simp only [List.mem_map] at hd
                obtain ⟨f, _, heq⟩ := hd
                exact Effect.noConfusion heq
            · revert hd
              simp only [saveTraceOf]
              split_ifs with hdirty
              · intro hd
                simp only [List.mem_singleton, Effect.savedDb.injEq] at hd
                exact ⟨hdirty, hd⟩
              · intro hd
                exact absurd hd (by simp)
          · rintro ⟨hdirty, rfl⟩
            apply List.mem_append.mpr
            right
            simp [saveTraceOf, hdirty]
        constructor
        · constructor
          · rintro ⟨d, hd⟩
            exact ⟨t, rfl, ((hmem d).mp hd).1⟩
          · rintro ⟨t2, ht2, hdirty⟩
            simp only [Option.some.injEq] at ht2
            subst ht2
            exact ⟨dbasename, (hmem dbasename).mpr ⟨hdirty, rfl⟩⟩
        · intro hcmd d hd
          have htab := hmatch hcmd
          simp only [Option.some.injEq] at htab
          have hdirty : t.dirty = false := by
            rw [htab]
            unfold initialTab
            rw [if_neg (by rw [hcmd]; decide)]
            rfl
          have hdirty2 := ((hmem d).mp hd).1
          rw [hdirty] at hdirty2
          exact Bool.noConfusion hdirty2

/-- Witness for C5: a pure `match` run over a clean loaded table is gated
off — no save event appears. -/
theorem main_save_gated_by_dirty_witness :
    ((∃ d, Effect.savedDb d ∈ ([Effect.processedFile "q"] : List Effect))
      ↔ ∃ t, (some (HashTable.new 20 100 16384) : Option HashTable) = some t
          ∧ t.dirty = true)
    ∧ ("match" = "match" →
        ∀ d, Effect.savedDb d ∉ ([Effect.processedFile "q"] : List Effect)) :=
  main_save_gated_by_dirty (fun _ => HashTable.new 20 100 16384) (fun _ => [])
    "match" ⟨some "db", 20, 20, 100, 16384, 11025, 0, 30, 3, 5, 1, ["q"]⟩
    ⟨some { density := 20, maxpksperframe := 5, maxpairsperpeak := 3
            f_sd := 30, shifts := 4, target_sr := 11025, n_fft := 512
            n_hop := 256 },
     some (HashTable.new 20 100 16384), [Effect.processedFile "q"]⟩ rfl

/-- Counterexample for C6: for the `merge` command no analyzer exists
(line 334), so even when the loaded database's stored samplerate (8000)
differs from the requested one (11025), `main` emits no warning and adopts
nothing — the run's outcome has `analyzer = none` and an empty trace,
where the claim demands a warning naming the database. -/
theorem merge_samplerate_mismatch_no_warning :
    main_model
        (fun _ => { HashTable.new 20 100 16384 with samplerate := some 8000 })
        (fun _ => []) "merge"
        ⟨some "db", 20, 20, 100, 16384, 11025, 0, 30, 3, 5, 1, []⟩
      = .ok ⟨none,
          some { HashTable.new 20 100 16384 with
            samplerate := some 8000, dirty := false }, []⟩
    ∧ Effect.warnedSamplerate "db" ∉ ([] : List Effect) :=
  ⟨rfl, by simp⟩

/-- C6 as amended: when loading an existing index for `add` or `match`
whose stored samplerate differs from the analyzer's requested target rate,
`main` adopts the stored rate (the analyzer's `target_sr` becomes the
stored value), prints a warning naming the database, and continues
processing every input file; for `merge` no analyzer is set up at all
(line 334), so no rate is adopted and no warning is emitted. -/
theorem samplerate_adoption_amended (loadIndex : String → HashTable)
    (w : String → List (ℕ × ℕ)) (args : MainArgs) (d : String) (sr : ℤ)
    (hdb : args.dbase = some d)
    (hsr : (loadIndex d).samplerate = some sr)
    (hne : sr ≠ args.samplerate) :
    (∀ cmd, cmd = "add" ∨ cmd = "match" →
      ∃ outcome, main_model loadIndex w cmd args = .ok outcome
        ∧ (∃ a, outcome.analyzer = some a ∧ a.target_sr = sr)
        ∧ Effect.warnedSamplerate d ∈ outcome.trace
        ∧ ∀ f ∈ args.files, Effect.processedFile f ∈ outcome.trace)
    ∧ (∃ outcome, main_model loadIndex w "merge" args = .ok outcome
        ∧ outcome.analyzer = none
        ∧ ∀ d2, Effect.warnedSamplerate d2 ∉ outcome.trace) := by
  constructor
  · intro cmd hcmd
    have hnew : ¬cmd = "new" := by rcases hcmd with rfl | rfl <;> decide
    have hmerge : ¬cmd = "merge" := by rcases hcmd with rfl | rfl <;> decide
    have hpre : ¬cmd = "precompute" := by rcases hcmd with rfl | rfl <;> decide
    have htabsr : (initialTab loadIndex cmd args d).samplerate = some sr := by
      unfold initialTab
      rw [if_neg hnew]
      exact hsr
    have hanalyzer : mainAnalyzer cmd args
        = some (setup_analyzer (mainAnalyzerArgs cmd args)) := by
      unfold mainAnalyzer
      rw [if_pos hmerge]
    have hadopt : adoptSamplerate (mainAnalyzer cmd args) (some sr)
        = some { setup_analyzer (mainAnalyzerArgs cmd args) with
            target_sr := sr } := by
      rw [hanalyzer]
      show (if sr ≠ (setup_analyzer (mainAnalyzerArgs cmd args)).target_sr then
          some { setup_analyzer (mainAnalyzerArgs cmd args) with
            target_sr := sr }
        else some (setup_analyzer (mainAnalyzerArgs cmd args))) = _
      rw [if_pos (show sr ≠ (setup_analyzer (mainAnalyzerArgs cmd args)).target_sr
        from hne)]
    have hwarn : samplerateWarn (mainAnalyzer cmd args) (some sr) = true := by
      rw [hanalyzer]
      show decide (sr ≠ (setup_analyzer (mainAnalyzerArgs cmd args)).target_sr)
        = true
      exact decide_eq_true hne
    have hmain : main_model loadIndex w cmd args
        = finishRun d
          (adoptSamplerate (mainAnalyzer cmd args)
            (initialTab loadIndex cmd args d).samplerate)
          (if samplerateWarn (mainAnalyzer cmd args)
              (initialTab loadIndex cmd args d).samplerate then
            [Effect.warnedSamplerate d]
          else [])
          (runCmd loadIndex w cmd (some (initialTab loadIndex cmd args d))
            args) := by
      unfold main_model
      rw [if_neg hpre]
      simp only [hdb]
    obtain ⟨T, hT⟩ : ∃ T, runCmd loadIndex w cmd
        (some (initialTab loadIndex cmd args d)) args
        = .ok (some T, args.files.map Effect.processedFile) := by
      unfold runCmd
      split_ifs
      · rcases hcmd with rfl | rfl
        · exact ⟨multiproc_add w (initialTab loadIndex "add" args d)
            args.files args.ncores.toNat, rfl⟩
        · exact ⟨initialTab loadIndex "match" args d, rfl⟩
      · rcases hcmd with rfl | rfl
        · exact ⟨seqBuild w (initialTab loadIndex "add" args d) args.files,
            rfl⟩
        · exact ⟨initialTab loadIndex "match" args d, rfl⟩
    refine ⟨⟨adoptSamplerate (mainAnalyzer cmd args) (some sr), some T,
      [Effect.warnedSamplerate d] ++ args.files.map Effect.processedFile
        ++ saveTraceOf d (some T)⟩, ?_, ?_, ?_, ?_⟩
    · rw [hmain, htabsr, hT, hwarn]
      simp [finishRun]
    · exact ⟨{ setup_analyzer (mainAnalyzerArgs cmd args) with
        target_sr := sr }, hadopt, rfl⟩
    · simp
    · intro f hf
      simp only [List.mem_append]
      left
      right
      exact List.mem_map_of_mem Effect.processedFile hf
  · have hpre : ¬("merge" : String) = "precompute" := by decide
    have hnew : ¬("merge" : String) = "new" := by decide
    have htabsr : (initialTab loadIndex "merge" args d).samplerate = some sr := by
      unfold initialTab
      rw [if_neg hnew]
      exact hsr
    have hanalyzer : mainAnalyzer "merge" args = none := by
      unfold mainAnalyzer
      rw [if_neg (by decide)]
    have hmain : main_model loadIndex w "merge" args
        = finishRun d
          (adoptSamplerate (mainAnalyzer "merge" args)
            (initialTab loadIndex "merge" args d).samplerate)
          (if samplerateWarn (mainAnalyzer "merge" args)
              (initialTab loadIndex "merge" args d).samplerate then
            [Effect.warnedSamplerate d]
          else [])
          (runCmd loadIndex w "merge"
            (some (initialTab loadIndex "merge" args d)) args) := by
      unfold main_model
      rw [if_neg hpre]
      simp only [hdb]
    have hT : runCmd loadIndex w "merge"
        (some (initialTab loadIndex "merge" args d)) args
        = .ok (some (args.files.foldl
            (fun acc fn => acc.merge (loadTable loadIndex fn))
            (initialTab loadIndex "merge" args d)),
          args.files.map Effect.processedFile) := by
      unfold runCmd
      rw [if_neg (by simp [usesMultiproc])]
      rfl
    refine ⟨⟨none, some (args.files.foldl
        (fun acc fn => acc.merge (loadTable loadIndex fn))
        (initialTab loadIndex "merge" args d)),
      [] ++ args.files.map Effect.processedFile
        ++ saveTraceOf d (some (args.files.foldl
          (fun acc fn => acc.merge (loadTable loadIndex fn))
          (initialTab loadIndex "merge" args d)))⟩, ?_, rfl, ?_⟩
    · rw [hmain, htabsr, hT, hanalyzer]
      simp [finishRun, samplerateWarn, adoptSamplerate]
    · intro d2 hd2
      simp only [List.mem_append] at hd2
      rcases hd2 with (hd2 | hd2) | hd2
      · simp at hd2
      · simp only [List.mem_map] at hd2
        obtain ⟨f, _, heq⟩ := hd2
        exact Effect.noConfusion heq
      · revert hd2
        simp only [saveTraceOf]
        split_ifs
        · intro hd2
          simp only [List.mem_singleton] at hd2
          exact Effect.noConfusion hd2
        · intro hd2
          exact absurd hd2 (by simp)

/-- Witness for C6's amended statement at a concrete mismatching load. -/
theorem samplerate_adoption_amended_witness :
    (∀ cmd, cmd = "add" ∨ cmd = "match" →
      ∃ outcome, main_model
          (fun _ => { HashTable.new 20 100 16384 with samplerate := some 8000 })
          (fun _ => []) cmd
          ⟨some "db", 20, 20, 100, 16384, 11025, 0, 30, 3, 5, 1, ["x"]⟩
        = .ok outcome
        ∧ (∃ a, outcome.analyzer = some a ∧ a.target_sr = 8000)
        ∧ Effect.warnedSamplerate "db" ∈ outcome.trace
        ∧ ∀ f ∈ (["x"] : List String),
            Effect.processedFile f ∈ outcome.trace)
    ∧ (∃ outcome, main_model
          (fun _ => { HashTable.new 20 100 16384 with samplerate := some 8000 })
          (fun _ => []) "merge"
          ⟨some "db", 20, 20, 100, 16384, 11025, 0, 30, 3, 5, 1, ["x"]⟩
        = .ok outcome
        ∧ outcome.analyzer = none
        ∧ ∀ d2, Effect.warnedSamplerate d2 ∉ outcome.trace) :=
  samplerate_adoption_amended
    (fun _ => { HashTable.new 20 100 16384 with samplerate := some 8000 })
    (fun _ => []) ⟨some "db", 20, 20, 100, 16384, 11025, 0, 30, 3, 5, 1, ["x"]⟩
    "db" 8000 rfl rfl (by decide)

/-- C7: the `merge` command never runs on the multiprocessing path: the
dispatch condition of `main` is false for `merge` at every core count (so
`merge` always goes to the single-core `do_cmd`, and a `merge` run is
identical to the same run with `ncores = 1`), and `do_cmd_multiproc`
rejects `merge` with `ValueError`; hence the master index only ever has a
single writer. -/
theorem merge_never_multiproc (loadIndex : String → HashTable)
    (w : String → List (ℕ × ℕ)) (tab : Option HashTable)
    (files : List String) (ncores : ℤ) (args : MainArgs) :
    usesMultiproc "merge" ncores = false
    ∧ do_cmd_multiproc w "merge" tab files ncores
        = .error "unrecognized multiproc command: merge"
    ∧ main_model loadIndex w "merge" args
        = main_model loadIndex w "merge" { args with ncores := 1 } := by
  refine ⟨?_, rfl, ?_⟩
  · unfold usesMultiproc
    simp
  · unfold main_model runCmd
    rw [if_neg (by decide), if_neg (by decide)]
    cases hdb : args.dbase with
    | none => rfl
    | some dbasename =>
      simp [usesMultiproc, initialTab, mainAnalyzer, mainAnalyzerArgs]

end Audfprint

namespace Audfprint

/-- C8: `setup_analyzer` fixes the transform frame size at 512 points and
the hop at half the frame, 256 points, for every argument set (the values
are constants, independent of all command-line options). -/
theorem setup_analyzer_fixed_transform (args : AnalyzerArgs) :
    (setup_analyzer args).n_fft = 512 ∧ (setup_analyzer args).n_hop = 256
    ∧ (setup_analyzer args).n_hop = (setup_analyzer args).n_fft / 2 :=
  ⟨rfl, rfl, rfl⟩

/-- C10: a zero `--shifts` becomes 4 for the `match` command and 1 for any
other command; a nonzero `--shifts` is used unchanged for all commands. -/
theorem setup_analyzer_shifts_default (args : AnalyzerArgs) :
    (args.shiftsArg = 0 →
      (setup_analyzer args).shifts = if args.matchCmd then 4 else 1)
    ∧ (args.shiftsArg ≠ 0 → (setup_analyzer args).shifts = args.shiftsArg) := by
  constructor <;> intro h <;> simp [setup_analyzer, h]

/-- Witness for C10: `--shifts 0` with the `match` command yields 4 shifts,
and `--shifts 7` stays 7. -/
theorem setup_analyzer_shifts_default_witness :
    (setup_analyzer
      { density := 20, pksPerFrame := 5, fanout := 3, freqSd := 30
        shiftsArg := 0, samplerate := 11025, matchCmd := true }).shifts = 4
    ∧ (setup_analyzer
      { density := 20, pksPerFrame := 5, fanout := 3, freqSd := 30
        shiftsArg := 7, samplerate := 11025, matchCmd := false }).shifts = 7 :=
  ⟨(setup_analyzer_shifts_default _).1 rfl,
   (setup_analyzer_shifts_default _).2 (by decide)⟩

end Audfprint
